import Mathlib

/-!
Verification development for the KGLS CVRP search core: a shallow embedding of
`kgls/datastructure/cost_evaluator.py` and
`kgls/local_search/operator_cross_exchange.py`.

Python floats are modelled as rationals, Python ints as integers.  `math.sqrt`
is kept abstract as a function parameter `sqrtF : ℚ → ℚ` (an exact square root
does not exist in ℚ); every statement that needs properties of the square root
takes them as hypotheses matching the `math.sqrt` contract.

The Node / Edge / Route / VRPSolution classes are not part of the two embedded
source files; they are modelled from the specification (spec.md §3, §4.5):
routes are cyclic doubly-linked lists anchored at a depot sentinel, which we
represent as the depot plus the list of customers in route order, and pointer
navigation (`prev`, `next`, `get_neighbour`) becomes positional navigation in
that list.
-/

/-- Modelled from the spec: a Node value object (Node class not in src).
Identity: id, planar coordinates, demand, depot flag (spec.md §3). -/
structure Node where
  node_id : ℕ
  x_coordinate : ℚ
  y_coordinate : ℚ
  demand : ℤ
  is_depot : Bool
deriving DecidableEq, Repr

/-- Modelled from the spec: an Edge of the solution graph (Edge class not in
src): an unordered pair of nodes together with the mutable badness `value`
(spec.md §3).  In the functional embedding the `value` field is immutable and
updated edges are fresh records. -/
structure Edge where
  node1 : Node
  node2 : Node
  value : ℚ
deriving DecidableEq, Repr

/-- Modelled from the spec (§9): edges are hashed/compared as the unordered
pair of endpoint ids, represented as `(min id, max id)`. -/
def ekey (i j : ℕ) : ℕ × ℕ := (min i j, max i j)

/-- Modelled from the spec: a Route (Route class not in src), a cyclic
doubly-linked list anchored at a depot sentinel, represented as the depot plus
the customers in route order (spec.md §3). -/
structure Route where
  depot : Node
  customers : List Node
deriving DecidableEq, Repr

/-- Route `volume` field, per the spec invariant
`volume == sum(demand of non-depot members)` (spec.md §3). -/
def Route.volume (r : Route) : ℤ := (r.customers.map (·.demand)).sum

/-- Sum of the demands of a list of nodes. -/
def sumD (l : List Node) : ℤ := (l.map (·.demand)).sum

/-- Modelled from the spec: `node.next` for a node of route `r` — the list
successor among the customers, or the depot after the last customer; the
depot's `next` is the first customer (spec.md §3). -/
def Route.nextOf (r : Route) (n : Node) : Node :=
  if n = r.depot then r.customers.headD r.depot
  else ((r.customers.dropWhile (fun m => m ≠ n)).tail).headD r.depot

/-- Modelled from the spec: `node.prev` for a node of route `r` (spec.md §3). -/
def Route.prevOf (r : Route) (n : Node) : Node :=
  if n = r.depot then (r.customers.getLastD r.depot)
  else ((r.customers.takeWhile (fun m => m ≠ n)).getLastD r.depot)

/-- Modelled from the spec: `node.get_neighbour(direction)` with
`neighbour(0) = next`, `neighbour(1) = prev` (spec.md §4.5). -/
def Route.neighbourOf (r : Route) (n : Node) (direction : ℕ) : Node :=
  if direction = 0 then r.nextOf n else r.prevOf n

/-- The sequence of nodes encountered strictly after `n` when walking from `n`
in `direction` (0 = follow next, 1 = follow prev) until the depot is reached,
the terminating depot included.  This is the trace of the pointer walks
performed by the cross-exchange segment-growing loops. -/
def Route.walkFrom (r : Route) (n : Node) (direction : ℕ) : List Node :=
  if direction = 0 then ((r.customers.dropWhile (fun m => m ≠ n)).tail) ++ [r.depot]
  else ((r.customers.takeWhile (fun m => m ≠ n)).reverse) ++ [r.depot]

/-- Modelled from the spec: `route.get_edges()` — every consecutive pair along
the route's cycle, depot-adjacent edges included (spec.md §4.3). -/
def Route.get_edges (r : Route) : List (Node × Node) :=
  match r.customers with
  | [] => []
  | _ => (r.depot :: r.customers).zip (r.customers ++ [r.depot])

/-- Modelled from the spec: a VRPSolution, the collection of routes
(spec.md §3). -/
structure VRPSolution where
  routes : List Route
deriving DecidableEq, Repr

/-- The route holding node `n` (the `node.route` back-reference, resolved
through the solution). -/
def VRPSolution.routeOf (sol : VRPSolution) (n : Node) : Option Route :=
  sol.routes.find? (fun r => n ∈ r.customers)

/-- Well-formedness of a single route: the sentinel is a depot and every
customer is a customer, listed once (spec.md §3 invariants). -/
def Route.WF (r : Route) : Prop :=
  r.depot.is_depot = true ∧ (∀ n ∈ r.customers, n.is_depot = false) ∧ r.customers.Nodup

/-- Well-formedness of a solution: every route is well-formed and no customer
appears in two distinct routes (spec.md §3 invariants). -/
def VRPSolution.WF (sol : VRPSolution) : Prop :=
  (∀ r ∈ sol.routes, r.WF) ∧
  (∀ r1 ∈ sol.routes, ∀ r2 ∈ sol.routes, r1 ≠ r2 →
    ∀ n ∈ r1.customers, n ∉ r2.customers)

/-- Python's `round` on an exact rational: round half to even. -/
def pyRound (q : ℚ) : ℤ :=
  if q - ⌊q⌋ < 1/2 then ⌊q⌋
  else if 1/2 < q - ⌊q⌋ then ⌊q⌋ + 1
  else if ⌊q⌋ % 2 = 0 then ⌊q⌋ else ⌊q⌋ + 1

/-- Python's `int()` on an exact rational: truncation towards zero. -/
def pyInt (q : ℚ) : ℤ := if 0 ≤ q then ⌊q⌋ else ⌈q⌉

theorem pyRound_ge_floor (q : ℚ) : ⌊q⌋ ≤ pyRound q := by
  unfold pyRound
  split
  · exact le_refl _
  · split
    · exact Int.le.intro 1 rfl
    · split
      · exact le_refl _
      · exact Int.le.intro 1 rfl

theorem pyRound_intCast (c : ℤ) : pyRound (c : ℚ) = c := by
  unfold pyRound
  rw [Int.floor_intCast]
  simp

theorem le_pyRound_add_of_nonneg (c : ℤ) (x : ℚ) (hx : 0 ≤ x) :
    c ≤ pyRound ((c : ℚ) + x) := by
  have h1 : (c : ℤ) ≤ ⌊(c : ℚ) + x⌋ := Int.le_floor.mpr (by linarith)
  exact le_trans h1 (pyRound_ge_floor _)

/-- Rotating penalization criterium: the code builds
`cycle(["width", "length", "width_length"])` and advances it once at
construction and once per `determine_edge_badness` call. -/
inductive Criterium where
  | width
  | length
  | width_length
deriving DecidableEq, Repr

/-- One step of the criterium cycle. -/
def Criterium.next : Criterium → Criterium
  | .width => .length
  | .length => .width_length
  | .width_length => .width

/-- State of a `CostEvaluator` (cost_evaluator.py, class CostEvaluator).
Dictionaries become functions (`Option`-valued where the Python dict starts
empty); the heap and the dirty list keep their list representation. -/
structure CEState where
  nodes : List Node
  capacity : ℤ
  neighborhood_size : ℕ
  penalization_enabled : Bool
  edge_penalties : ℕ × ℕ → ℕ
  baseline_cost : ℤ
  edge_ranking : List Edge
  costs : ℕ → ℕ → ℤ
  penalized_costs : ℕ → ℕ → ℤ
  neighborhood_keys : List Node
  neighborhood_map : Node → List Node
  in_neighborhood_of : Node → List Node
  nodes_to_update_for_relocation_chain : List Node
  penalization_criterium : Criterium
  ejection_costs : Node → Option ℤ
  insertion_costs : Node × Node → Option ℤ
  insertion_after : Node × Node → Option Node

/-- CostEvaluator._compute_euclidean_distance (cost_evaluator.py:83-90),
with `math.sqrt` abstracted as `sqrtF`. -/
def compute_euclidean_distance (sqrtF : ℚ → ℚ) (node1 node2 : Node) : ℤ :=
  pyRound (sqrtF ((node1.x_coordinate - node2.x_coordinate) ^ 2 +
                  (node1.y_coordinate - node2.y_coordinate) ^ 2))

/-- The costs matrix built in CostEvaluator.__init__ (cost_evaluator.py:42-46):
entry (i, j) is the rounded Euclidean distance between the nodes with ids i
and j (node ids are assumed distinct, as the spec requires ids dense from 0). -/
def initCosts (sqrtF : ℚ → ℚ) (nodes : List Node) : ℕ → ℕ → ℤ := fun i j =>
  match nodes.find? (fun n => n.node_id == i), nodes.find? (fun n => n.node_id == j) with
  | some n1, some n2 => compute_euclidean_distance sqrtF n1 n2
  | _, _ => 0

/-- Python `self.nodes[n]`: index into the node list (ids dense from 0). -/
def nthNode (nodes : List Node) (i : ℕ) : Node := nodes.getD i ⟨0, 0, 0, 0, true⟩

/-- CostEvaluator._get_nearest_neighbors (cost_evaluator.py:111-116): sort the
distance row ascending (Python sorted is stable; dict items iterate in node
order), keep non-depot nodes other than `node`, take the first
`neighborhood_size`. -/
def get_nearest_neighbors (nodes : List Node) (costsF : ℕ → ℕ → ℤ)
    (nbSize : ℕ) (node : Node) : List Node :=
  let sorted_distances_asc :=
    (nodes.map (fun n2 => (n2.node_id, costsF node.node_id n2.node_id))).mergeSort
      (fun a b => decide (a.2 ≤ b.2))
  ((sorted_distances_asc.map (fun p => nthNode nodes p.1)).filter
    (fun m => decide (m.is_depot = false ∧ m ≠ node))).take nbSize

/-- CostEvaluator.__init__ (cost_evaluator.py:33-71), parametrised by the
abstract square root. -/
def CostEvaluator.init (sqrtF : ℚ → ℚ) (nodes : List Node) (capacity : ℤ) : CEState :=
  let costsF : ℕ → ℕ → ℤ := initCosts sqrtF nodes
  let nbMap : Node → List Node := fun n => get_nearest_neighbors nodes costsF 20 n
  let keys : List Node := nodes.filter (fun n => !n.is_depot)
  let total : ℤ :=
    (keys.map (fun n => ((nbMap n).map (fun other => costsF n.node_id other.node_id)).sum)).sum
  { nodes := nodes
    capacity := capacity
    neighborhood_size := 20
    penalization_enabled := false
    edge_penalties := fun _ => 0
    baseline_cost := pyInt ((total : ℚ) / ((20 : ℚ) * (nodes.length : ℚ)))
    edge_ranking := []
    costs := costsF
    penalized_costs := costsF
    neighborhood_keys := keys
    neighborhood_map := nbMap
    in_neighborhood_of := fun n => keys.filter (fun other => decide (n ∈ nbMap other))
    nodes_to_update_for_relocation_chain := keys
    penalization_criterium := Criterium.width
    ejection_costs := fun _ => none
    insertion_costs := fun _ => none
    insertion_after := fun _ => none }

/-- CostEvaluator.get_distance (cost_evaluator.py:208-212). -/
def CEState.get_distance (s : CEState) (node1 node2 : Node) : ℤ :=
  if s.penalization_enabled = false then s.costs node1.node_id node2.node_id
  else s.penalized_costs node1.node_id node2.node_id

/-- CostEvaluator.is_feasible (cost_evaluator.py:118-119); the Python
parameter is named `capacity` but carries a load. -/
def CEState.is_feasible (s : CEState) (capacity : ℤ) : Bool :=
  decide (capacity ≤ s.capacity)

/-- CostEvaluator.update_ejection_costs (cost_evaluator.py:76-81); the
`node.prev` / `node.next` pointers are resolved through the solution. -/
def CEState.update_ejection_costs (s : CEState) (sol : VRPSolution) (node : Node) : CEState :=
  match sol.routeOf node with
  | none => s
  | some r =>
    let v := s.get_distance node (r.prevOf node) + s.get_distance node (r.nextOf node)
             - s.get_distance (r.prevOf node) (r.nextOf node)
    { s with ejection_costs := fun m => if m = node then some v else s.ejection_costs m }

/-- CostEvaluator._update_insertion_costs (cost_evaluator.py:121-139). -/
def CEState.update_insertion_costs (s : CEState) (sol : VRPSolution)
    (node insert_next_to_node : Node) : CEState :=
  match sol.routeOf insert_next_to_node with
  | none => s
  | some r =>
    let p := r.prevOf insert_next_to_node
    let q := r.nextOf insert_next_to_node
    let cost_insert_before := s.get_distance node p + s.get_distance node insert_next_to_node
                              - s.get_distance p insert_next_to_node
    let cost_insert_after := s.get_distance node q + s.get_distance node insert_next_to_node
                             - s.get_distance insert_next_to_node q
    if cost_insert_before ≤ cost_insert_after then
      { s with
        insertion_costs := fun k =>
          if k = (node, insert_next_to_node) then some cost_insert_before else s.insertion_costs k
        insertion_after := fun k =>
          if k = (node, insert_next_to_node) then some p else s.insertion_after k }
    else
      { s with
        insertion_costs := fun k =>
          if k = (node, insert_next_to_node) then some cost_insert_after else s.insertion_costs k
        insertion_after := fun k =>
          if k = (node, insert_next_to_node) then some insert_next_to_node else s.insertion_after k }

/-- The body of the `for node in self._nodes_to_update_for_relocation_chain`
loop of CostEvaluator.update_relocation_costs (cost_evaluator.py:142-153):
refresh the node's ejection cost, then the insertion costs of the node next
to each potential neighbour, then those of each potential neighbour next to
the node. -/
def relocationBody (sol : VRPSolution) (st : CEState) (node : Node) : CEState :=
  let st1 := st.update_ejection_costs sol node
  let st2 := (st1.in_neighborhood_of node).foldl
    (fun st2 pn => st2.update_insertion_costs sol node pn) st1
  (st2.in_neighborhood_of node).foldl
    (fun st3 pn => st3.update_insertion_costs sol pn node) st2

/-- CostEvaluator.update_relocation_costs (cost_evaluator.py:141-155). -/
def CEState.update_relocation_costs (s : CEState) (sol : VRPSolution) : CEState :=
  let s1 := s.nodes_to_update_for_relocation_chain.foldl (relocationBody sol) s
  { s1 with nodes_to_update_for_relocation_chain := [] }

/-- CostEvaluator.enable_penalization (cost_evaluator.py:196-200): the dirty
list is rebuilt from the keys of the neighborhood mapping. -/
def CEState.enable_penalization (s : CEState) : CEState :=
  { s with penalization_enabled := true
           nodes_to_update_for_relocation_chain :=
             s.neighborhood_keys.filter (fun n => !n.is_depot) }

/-- CostEvaluator.disable_penalization (cost_evaluator.py:202-206). -/
def CEState.disable_penalization (s : CEState) : CEState :=
  { s with penalization_enabled := false
           nodes_to_update_for_relocation_chain :=
             s.neighborhood_keys.filter (fun n => !n.is_depot) }

/-- CostEvaluator._compute_route_center (cost_evaluator.py:299-304). -/
def compute_route_center (nodes : List Node) : ℚ × ℚ :=
  ((nodes.map (·.x_coordinate)).sum / (nodes.length : ℚ),
   (nodes.map (·.y_coordinate)).sum / (nodes.length : ℚ))

/-- CostEvaluator._compute_edge_width (cost_evaluator.py:266-297), with
`math.sqrt` abstracted as `sqrtF`; `node1`, `node2` are the edge endpoints. -/
def compute_edge_width (sqrtF : ℚ → ℚ) (node1 node2 : Node)
    (route_center_x route_center_y : ℚ) (depot : Node) : ℚ :=
  let distance_depot_center :=
    sqrtF ((depot.x_coordinate - route_center_x) ^ 2 +
           (depot.y_coordinate - route_center_y) ^ 2)
  let d1 := (route_center_y - depot.y_coordinate) * node1.x_coordinate
            - (route_center_x - depot.x_coordinate) * node1.y_coordinate
            + route_center_x * depot.y_coordinate - route_center_y * depot.x_coordinate
  let distance_node1 := if distance_depot_center = 0 then 0 else d1 / distance_depot_center
  let d2 := (route_center_y - depot.y_coordinate) * node2.x_coordinate
            - (route_center_x - depot.x_coordinate) * node2.y_coordinate
            + route_center_x * depot.y_coordinate - route_center_y * depot.x_coordinate
  let distance_node2 := if distance_depot_center = 0 then 0 else d2 / distance_depot_center
  |distance_node1 - distance_node2|

/-- CostEvaluator.determine_edge_badness (cost_evaluator.py:157-183): score
every edge of every given route with the current criterium, divide by
`1 + edge_penalties[edge]`, rebuild the ranking, rotate the criterium. -/
def CEState.determine_edge_badness (sqrtF : ℚ → ℚ) (s : CEState) (routes : List Route) : CEState :=
  let edges_in_solution := routes.flatMap (fun route =>
    let center := if s.penalization_criterium = Criterium.length then ((0 : ℚ), (0 : ℚ))
                  else compute_route_center route.customers
    route.get_edges.map (fun e =>
      let base : ℚ :=
        match s.penalization_criterium with
        | Criterium.length => ((s.costs e.1.node_id e.2.node_id : ℤ) : ℚ)
        | Criterium.width => compute_edge_width sqrtF e.1 e.2 center.1 center.2 route.depot
        | Criterium.width_length =>
            compute_edge_width sqrtF e.1 e.2 center.1 center.2 route.depot
            + ((s.costs e.1.node_id e.2.node_id : ℤ) : ℚ)
      { node1 := e.1, node2 := e.2,
        value := base / (1 + (s.edge_penalties (ekey e.1.node_id e.2.node_id) : ℚ)) }))
  { s with edge_ranking := edges_in_solution
           penalization_criterium := s.penalization_criterium.next }

/-- Modelled from the spec: `MaxHeapWithUpdate.get_max_element`
(cost_evaluator.py:18-20 wraps `heapq.heappop` over the Edge ordering; the
Edge comparison method is not in src, spec.md §4.1 specifies a max-priority
queue keyed by `value`): remove and return a maximum-`value` element. -/
def popMax : List Edge → Option (Edge × List Edge)
  | [] => none
  | e :: rest =>
    match popMax rest with
    | none => some (e, [])
    | some (m, rest2) => if decide (m.value ≤ e.value) then some (e, rest) else some (m, e :: rest2)

/-- CostEvaluator.get_and_penalize_worst_edge (cost_evaluator.py:214-241).
Returns `none` when the ranking is empty (Python raises there). -/
def CEState.get_and_penalize_worst_edge (s : CEState) : Option (Edge × CEState) :=
  match popMax s.edge_ranking with
  | none => none
  | some (worst_edge, restHeap) =>
    let node1 := worst_edge.node1.node_id
    let node2 := worst_edge.node2.node_id
    let p := s.edge_penalties (ekey node1 node2) + 1
    let penalization_costs :=
      pyRound ((s.costs node1 node2 : ℚ) + (1 / 10) * (s.baseline_cost : ℚ) * (p : ℚ))
    let updated := { worst_edge with value := (s.costs node1 node2 : ℚ) / (1 + (p : ℚ)) }
    some (updated,
      { s with
        edge_penalties := fun k => if k = ekey node1 node2 then p else s.edge_penalties k
        penalized_costs := fun a b =>
          if (a = node1 ∧ b = node2) ∨ (a = node2 ∧ b = node1) then penalization_costs
          else s.penalized_costs a b
        edge_ranking := updated :: restHeap
        nodes_to_update_for_relocation_chain :=
          s.nodes_to_update_for_relocation_chain
            ++ (if worst_edge.node1.is_depot = false then [worst_edge.node1] else [])
            ++ (if worst_edge.node2.is_depot = false then [worst_edge.node2] else []) })

/-- CostEvaluator.penalize (cost_evaluator.py:243-244). -/
def CEState.penalize (s : CEState) (edge : Edge) : CEState :=
  let ek := ekey edge.node1.node_id edge.node2.node_id
  { s with edge_penalties := fun k => if k = ek then s.edge_penalties ek + 1 else s.edge_penalties k }

/-- CostEvaluator.get_neighborhood (cost_evaluator.py:92-93). -/
def CEState.get_neighborhood (s : CEState) (node : Node) : List Node :=
  s.neighborhood_map node

/-- A CrossExchange move (operator_cross_exchange.py:8-28). -/
structure CrossExchange where
  segment1 : List Node
  segment2 : List Node
  segment1_insert_after : Node
  segment2_insert_after : Node
  improvement : ℤ
  start_node : Node
deriving DecidableEq, Repr

/-- The inner `while` of search_cross_exchanges_from
(operator_cross_exchange.py:103-140): grow segment 2 along `remaining` (the
pointer walk from the current `segment2_end`, here `cur`), emitting a
candidate whenever both routes stay feasible and the total improvement is
positive.  `seg1`, `vol1`, `seg1End`, `conn1End` are the enclosing outer-loop
state; `remaining` lists the nodes strictly after `cur` in walk order. -/
def innerLoop (ce : CEState) (route1 route2 : Route) (d1 d2 : ℕ)
    (conn1Start conn2Start conn1End : Node) (imp1 : ℤ) (start_node : Node)
    (seg1 : List Node) (vol1 : ℤ) (seg1End : Node) :
    (remaining : List Node) → (cur : Node) → (seg2 : List Node) → (vol2 : ℤ) →
    List CrossExchange
  | remaining, cur, seg2, vol2 =>
    if cur.is_depot = true then []
    else if ce.is_feasible (route1.volume - vol1 + vol2) = false then []
    else
      match remaining with
      | [] => []
      | next2 :: rest =>
        (if ce.is_feasible (route2.volume - vol2 + vol1) = true then
          let conn2End := next2
          let imp2 := ce.get_distance seg1End conn1End + ce.get_distance cur conn2End
                      - ce.get_distance seg1End conn2End - ce.get_distance cur conn1End
          let improvement := imp1 + imp2
          if 0 < improvement then
            [{ segment1 := seg1, segment2 := seg2,
               segment1_insert_after := if d2 = 1 then conn2Start else conn2End,
               segment2_insert_after := if d1 = 1 then conn1Start else conn1End,
               improvement := improvement, start_node := start_node }]
          else []
        else [])
        ++ innerLoop ce route1 route2 d1 d2 conn1Start conn2Start conn1End imp1 start_node
             seg1 vol1 seg1End rest next2
             (if (d2 = 1 ∧ d1 = 0) ∨ d1 + d2 = 0 then next2 :: seg2 else seg2 ++ [next2])
             (vol2 + next2.demand)

/-- The outer `while` of search_cross_exchanges_from
(operator_cross_exchange.py:97-149): grow segment 1 along `remaining1` (the
pointer walk from the current `segment1_end`, here `seg1End`); each iteration
restarts the inner loop from `seg2Start` with walk `walk2`, then extends
segment 1 by one node. -/
def outerLoop (ce : CEState) (route1 route2 : Route) (d1 d2 : ℕ)
    (conn1Start conn2Start : Node) (imp1 : ℤ) (start_node seg2Start : Node)
    (walk2 : List Node) :
    (remaining1 : List Node) → (seg1End : Node) → (seg1 : List Node) → (vol1 : ℤ) →
    List CrossExchange
  | remaining1, seg1End, seg1, vol1 =>
    if seg1End.is_depot = true then []
    else
      match remaining1 with
      | [] => []
      | conn1End :: rest1 =>
        innerLoop ce route1 route2 d1 d2 conn1Start conn2Start conn1End imp1 start_node
          seg1 vol1 seg1End walk2 seg2Start [seg2Start] seg2Start.demand
        ++ outerLoop ce route1 route2 d1 d2 conn1Start conn2Start imp1 start_node seg2Start
             walk2 rest1 conn1End
             (if (d1 = 1 ∧ d2 = 0) ∨ d1 + d2 = 0 then conn1End :: seg1 else seg1 ++ [conn1End])
             (vol1 + conn1End.demand)

/-- search_cross_exchanges_from (operator_cross_exchange.py:54-151).  The
`node.route` back-references and the pointer navigation are resolved through
`sol`; a seed that sits in no route yields no moves (Python would fault). -/
def search_cross_exchanges_from (ce : CEState) (sol : VRPSolution) (start_node : Node)
    (segment1_directions segment2_directions : List ℕ) : List CrossExchange :=
  match sol.routeOf start_node with
  | none => []
  | some route1 =>
    segment1_directions.flatMap (fun segment1_direction =>
      segment2_directions.flatMap (fun segment2_direction =>
        let route1_segment_connection_start :=
          if segment1_direction = 1 then route1.prevOf start_node else route1.nextOf start_node
        (ce.get_neighborhood start_node).flatMap (fun route2_segment_connection_start =>
          match sol.routeOf route2_segment_connection_start with
          | none => []
          | some route2 =>
            if route2 = route1 then []
            else
              let segment2_start := route2.neighbourOf route2_segment_connection_start segment2_direction
              if segment2_start.is_depot = true then []
              else
                let improvement_first_cross :=
                  ce.get_distance start_node route1_segment_connection_start
                  + ce.get_distance segment2_start route2_segment_connection_start
                  - ce.get_distance start_node route2_segment_connection_start
                  - ce.get_distance segment2_start route1_segment_connection_start
                if 0 < improvement_first_cross then
                  outerLoop ce route1 route2 segment1_direction segment2_direction
                    route1_segment_connection_start route2_segment_connection_start
                    improvement_first_cross start_node segment2_start
                    (route2.walkFrom segment2_start segment2_direction)
                    (route1.walkFrom start_node segment1_direction)
                    start_node [start_node] start_node.demand
                else [])))

/-- search_cross_exchanges (operator_cross_exchange.py:154-164): concatenate
the per-seed candidate lists and sort them with `CrossExchange.__lt__`
(improvement descending); Python `sorted` is modelled by the stable
`mergeSort` with `a ≤ b` iff not `b < a`, i.e. `b.improvement ≤ a.improvement`. -/
def search_cross_exchanges (ce : CEState) (sol : VRPSolution)
    (start_nodes : List Node) : List CrossExchange :=
  (start_nodes.flatMap
    (fun start_node => search_cross_exchanges_from ce sol start_node [0, 1] [0, 1])).mergeSort
    (fun a b => decide (b.improvement ≤ a.improvement))
theorem popMax_nil : popMax [] = none := rfl

theorem popMax_none_iff (l : List Edge) : popMax l = none ↔ l = [] := by
  constructor
  · intro h
    cases l with
    | nil => rfl
    | cons a t =>
      exfalso
      cases hp : popMax t with
      | none =>
        simp only [popMax, hp] at h
        exact Option.noConfusion h
      | some p =>
        obtain ⟨m, r2⟩ := p
        simp only [popMax, hp] at h
        split at h <;> simp at h
  · intro h; subst h; rfl

theorem popMax_spec : ∀ (l : List Edge) (e : Edge) (rest : List Edge),
    popMax l = some (e, rest) →
    (∀ x ∈ rest, x.value ≤ e.value) ∧ l.Perm (e :: rest)
  | [], e, rest, h => by simp [popMax] at h
  | a :: t, e, rest, h => by
    cases hp : popMax t with
    | none =>
      have ht : t = [] := (popMax_none_iff t).mp hp
      subst ht
      simp only [popMax, popMax_nil, Option.some.injEq, Prod.mk.injEq] at h
      obtain ⟨rfl, rfl⟩ := h
      exact ⟨by simp, by simp⟩
    | some p =>
      obtain ⟨m, r2⟩ := p
      obtain ⟨hmax, hperm⟩ := popMax_spec t m r2 hp
      simp only [popMax, hp] at h
      by_cases hc : m.value ≤ a.value
      · rw [if_pos (by simpa using hc)] at h
        simp only [Option.some.injEq, Prod.mk.injEq] at h
        obtain ⟨rfl, rfl⟩ := h
        refine ⟨fun x hx => ?_, List.Perm.refl _⟩
        rcases List.mem_cons.mp (hperm.mem_iff.mp hx) with hxm | hxr
        · simpa [hxm] using hc
        · exact le_trans (hmax x hxr) hc
      · rw [if_neg (by simpa using hc)] at h
        simp only [Option.some.injEq, Prod.mk.injEq] at h
        obtain ⟨rfl, rfl⟩ := h
        push_neg at hc
        constructor
        · intro x hx
          rcases List.mem_cons.mp hx with hxa | hxr
          · exact hxa ▸ le_of_lt hc
          · exact hmax x hxr
        · exact List.Perm.trans (hperm.cons a) (List.Perm.swap m a r2)

theorem popMax_length {l : List Edge} {e : Edge} {rest : List Edge}
    (h : popMax l = some (e, rest)) : l.length = rest.length + 1 := by
  have := (popMax_spec l e rest h).2.length_eq
  simpa using this

/-- Repeatedly pop the maximum from the ranking (`get_max_element` in a loop)
with explicit fuel; since every pop removes exactly one element, fuel equal to
the list length drains the heap completely. -/
def drainHeapFuel : ℕ → List Edge → List Edge
  | 0, _ => []
  | n + 1, l =>
    match popMax l with
    | none => []
    | some (e, rest) => e :: drainHeapFuel n rest

/-- The full sequence of edges obtained by popping the ranking via
`get_max_element` until it is empty. -/
def drainHeap (l : List Edge) : List Edge := drainHeapFuel l.length l

theorem drainHeapFuel_perm :
    ∀ (n : ℕ) (l : List Edge), l.length ≤ n → (drainHeapFuel n l).Perm l := by
  intro n
  induction n with
  | zero =>
    intro l hl
    have : l = [] := List.length_eq_zero.mp (Nat.le_zero.mp hl)
    subst this
    exact List.Perm.refl _
  | succ n ih =>
    intro l hl
    cases hp : popMax l with
    | none =>
      have : l = [] := (popMax_none_iff l).mp hp
      subst this
      simp [drainHeapFuel, popMax_nil]
    | some p =>
      obtain ⟨e, rest⟩ := p
      have hlen := popMax_length hp
      have hperm := (popMax_spec l e rest hp).2
      have hrest : rest.length ≤ n := by omega
      have h1 : drainHeapFuel (n + 1) l = e :: drainHeapFuel n rest := by
        simp [drainHeapFuel, hp]
      rw [h1]
      exact ((ih rest hrest).cons e).trans hperm.symm

theorem drainHeapFuel_sorted :
    ∀ (n : ℕ) (l : List Edge), l.length ≤ n →
      (drainHeapFuel n l).Pairwise (fun a b => b.value ≤ a.value) := by
  intro n
  induction n with
  | zero => intro l _; simp [drainHeapFuel]
  | succ n ih =>
    intro l hl
    cases hp : popMax l with
    | none => simp [drainHeapFuel, hp]
    | some p =>
      obtain ⟨e, rest⟩ := p
      have hlen := popMax_length hp
      have hmax := (popMax_spec l e rest hp).1
      have hrest : rest.length ≤ n := by omega
      have hdrain : drainHeapFuel (n + 1) l = e :: drainHeapFuel n rest := by
        simp [drainHeapFuel, hp]
      rw [hdrain]
      refine List.pairwise_cons.mpr ⟨fun x hx => ?_, ih rest hrest⟩
      exact hmax x ((drainHeapFuel_perm n rest hrest).mem_iff.mp hx)

theorem drainHeap_perm (l : List Edge) : (drainHeap l).Perm l :=
  drainHeapFuel_perm l.length l (le_refl _)

theorem drainHeap_sorted (l : List Edge) :
    (drainHeap l).Pairwise (fun a b => b.value ≤ a.value) :=
  drainHeapFuel_sorted l.length l (le_refl _)

/-- C5: after `determine_edge_badness(routes)` has rebuilt the ranking from
the edges of the given routes, repeatedly popping it via `get_max_element`
until it is empty yields exactly the ranked edges (a permutation), in
non-increasing order of their `value` field. -/
theorem determine_edge_badness_drain_sorted (sqrtF : ℚ → ℚ) (s : CEState)
    (routes : List Route) :
    (drainHeap (s.determine_edge_badness sqrtF routes).edge_ranking).Perm
      (s.determine_edge_badness sqrtF routes).edge_ranking ∧
    (drainHeap (s.determine_edge_badness sqrtF routes).edge_ranking).Pairwise
      (fun a b => b.value ≤ a.value) :=
  ⟨drainHeap_perm _, drainHeap_sorted _⟩

/-- C9: `search_cross_exchanges` returns exactly the concatenation of the
per-seed candidate lists (as a permutation of it), arranged in non-increasing
order of the `improvement` field. -/
theorem search_cross_exchanges_sorted_desc (ce : CEState) (sol : VRPSolution)
    (start_nodes : List Node) :
    (search_cross_exchanges ce sol start_nodes).Perm
      (start_nodes.flatMap
        (fun start_node => search_cross_exchanges_from ce sol start_node [0, 1] [0, 1])) ∧
    (search_cross_exchanges ce sol start_nodes).Pairwise
      (fun a b => b.improvement ≤ a.improvement) := by
  constructor
  · exact List.mergeSort_perm _ _
  · have h := @List.sorted_mergeSort CrossExchange
      (fun a b : CrossExchange => decide (b.improvement ≤ a.improvement))
      (fun a b c hab hbc => by
        simp only [decide_eq_true_eq] at hab hbc ⊢
        exact le_trans hbc hab)
      (fun a b => by
        simp only [Bool.or_eq_true, decide_eq_true_eq]
        exact le_total b.improvement a.improvement)
      (start_nodes.flatMap
        (fun start_node => search_cross_exchanges_from ce sol start_node [0, 1] [0, 1]))
    exact h.imp (fun hab => by simpa using hab)

/-- C2: a call to `get_and_penalize_worst_edge` that pops edge `we` with
endpoint ids `i`, `j` increments `edge_penalties[we]` by exactly 1, sets both
`penalized_costs[i][j]` and `penalized_costs[j][i]` to
`round(costs[i][j] + 0.1 * baseline_cost * edge_penalties[we])` with the
incremented count, re-inserts `we` with
`value = costs[i][j] / (1 + edge_penalties[we])`, and returns it. -/
theorem get_and_penalize_worst_edge_spec (s : CEState) (we : Edge) (restHeap : List Edge)
    (hpop : popMax s.edge_ranking = some (we, restHeap)) :
    ∃ ret s', s.get_and_penalize_worst_edge = some (ret, s') ∧
      s'.edge_penalties (ekey we.node1.node_id we.node2.node_id) =
        s.edge_penalties (ekey we.node1.node_id we.node2.node_id) + 1 ∧
      s'.penalized_costs we.node1.node_id we.node2.node_id =
        pyRound ((s.costs we.node1.node_id we.node2.node_id : ℚ)
          + (1 / 10) * (s.baseline_cost : ℚ)
            * ((s.edge_penalties (ekey we.node1.node_id we.node2.node_id) + 1 : ℕ) : ℚ)) ∧
      s'.penalized_costs we.node2.node_id we.node1.node_id =
        s'.penalized_costs we.node1.node_id we.node2.node_id ∧
      ret.node1 = we.node1 ∧ ret.node2 = we.node2 ∧
      ret.value = (s.costs we.node1.node_id we.node2.node_id : ℚ)
        / (1 + ((s.edge_penalties (ekey we.node1.node_id we.node2.node_id) + 1 : ℕ) : ℚ)) ∧
      ret ∈ s'.edge_ranking := by
  unfold CEState.get_and_penalize_worst_edge
  rw [hpop]
  refine ⟨_, _, rfl, ?_, ?_, ?_, rfl, rfl, rfl, ?_⟩
  · simp
  · simp
  · by_cases hij : we.node1.node_id = we.node2.node_id <;> simp [hij]
  · simp

/-- Concrete pre-state for the C2 witness: spec scenario S3 with
`baseline_cost = 10`, `costs[0][1] = 5`, `edge_penalties = 0` and the single
edge `(0, 1)` in the ranking. -/
def wNode0 : Node := ⟨0, 0, 0, 0, false⟩

/-- Second endpoint of the witness edge. -/
def wNode1 : Node := ⟨1, 3, 4, 0, false⟩

/-- The witness edge for scenario S3. -/
def wEdge : Edge := ⟨wNode0, wNode1, 5⟩

/-- The witness evaluator state for scenario S3. -/
def wState : CEState :=
  { nodes := [wNode0, wNode1]
    capacity := 10
    neighborhood_size := 20
    penalization_enabled := true
    edge_penalties := fun _ => 0
    baseline_cost := 10
    edge_ranking := [wEdge]
    costs := fun i j => if i = j then 0 else 5
    penalized_costs := fun i j => if i = j then 0 else 5
    neighborhood_keys := []
    neighborhood_map := fun _ => []
    in_neighborhood_of := fun _ => []
    nodes_to_update_for_relocation_chain := []
    penalization_criterium := Criterium.width
    ejection_costs := fun _ => none
    insertion_costs := fun _ => none
    insertion_after := fun _ => none }

/-- Witness for C2: on scenario S3 the popped edge exists, and afterwards
`edge_penalties[e] = 1`, `penalized_costs[0][1] = 6` and `e.value = 5/2`. -/
theorem get_and_penalize_worst_edge_spec_witness :
    popMax wState.edge_ranking = some (wEdge, []) ∧
    (∃ ret s', wState.get_and_penalize_worst_edge = some (ret, s') ∧
      s'.edge_penalties (ekey wEdge.node1.node_id wEdge.node2.node_id) =
        wState.edge_penalties (ekey wEdge.node1.node_id wEdge.node2.node_id) + 1 ∧
      s'.penalized_costs wEdge.node1.node_id wEdge.node2.node_id =
        pyRound ((wState.costs wEdge.node1.node_id wEdge.node2.node_id : ℚ)
          + (1 / 10) * (wState.baseline_cost : ℚ)
            * ((wState.edge_penalties (ekey wEdge.node1.node_id wEdge.node2.node_id) + 1 : ℕ) : ℚ)) ∧
      s'.penalized_costs wEdge.node2.node_id wEdge.node1.node_id =
        s'.penalized_costs wEdge.node1.node_id wEdge.node2.node_id ∧
      ret.node1 = wEdge.node1 ∧ ret.node2 = wEdge.node2 ∧
      ret.value = (wState.costs wEdge.node1.node_id wEdge.node2.node_id : ℚ)
        / (1 + ((wState.edge_penalties (ekey wEdge.node1.node_id wEdge.node2.node_id) + 1 : ℕ) : ℚ)) ∧
      ret ∈ s'.edge_ranking) ∧
    wState.edge_penalties (ekey 0 1) + 1 = 1 ∧
    pyRound ((wState.costs 0 1 : ℚ)
      + (1 / 10) * (wState.baseline_cost : ℚ)
        * ((wState.edge_penalties (ekey 0 1) + 1 : ℕ) : ℚ)) = 6 ∧
    (wState.costs 0 1 : ℚ)
      / (1 + ((wState.edge_penalties (ekey 0 1) + 1 : ℕ) : ℚ)) = 5 / 2 := by
  refine ⟨?_, get_and_penalize_worst_edge_spec wState wEdge [] ?_, ?_, ?_, ?_⟩
  · rfl
  · rfl
  · simp [wState]
  · have h6 : ((wState.costs 0 1 : ℚ)
        + (1 / 10) * (wState.baseline_cost : ℚ)
          * ((wState.edge_penalties (ekey 0 1) + 1 : ℕ) : ℚ)) = ((6 : ℤ) : ℚ) := by
      simp [wState]
      norm_num
    rw [h6, pyRound_intCast]
  · simp [wState]
    norm_num

/-- C6: `_update_insertion_costs(n, a)` stores in `insertion_costs[(n, a)]`
the minimum of the insert-before and insert-after marginal costs, and in
`insertion_after[(n, a)]` the node `a.prev` when before wins (ties included)
and `a` otherwise. -/
theorem update_insertion_costs_spec (s : CEState) (sol : VRPSolution) (r : Route)
    (node insert_next_to_node : Node)
    (hnd : node.is_depot = false)
    (hr : sol.routeOf insert_next_to_node = some r) :
    (s.update_insertion_costs sol node insert_next_to_node).insertion_costs
        (node, insert_next_to_node) =
      some (min
        (s.get_distance node (r.prevOf insert_next_to_node)
          + s.get_distance node insert_next_to_node
          - s.get_distance (r.prevOf insert_next_to_node) insert_next_to_node)
        (s.get_distance node (r.nextOf insert_next_to_node)
          + s.get_distance node insert_next_to_node
          - s.get_distance insert_next_to_node (r.nextOf insert_next_to_node))) ∧
    (s.update_insertion_costs sol node insert_next_to_node).insertion_after
        (node, insert_next_to_node) =
      some (if s.get_distance node (r.prevOf insert_next_to_node)
          + s.get_distance node insert_next_to_node
          - s.get_distance (r.prevOf insert_next_to_node) insert_next_to_node
          ≤ s.get_distance node (r.nextOf insert_next_to_node)
          + s.get_distance node insert_next_to_node
          - s.get_distance insert_next_to_node (r.nextOf insert_next_to_node)
        then r.prevOf insert_next_to_node else insert_next_to_node) := by
  unfold CEState.update_insertion_costs
  rw [hr]
  by_cases hc : s.get_distance node (r.prevOf insert_next_to_node)
      + s.get_distance node insert_next_to_node
      - s.get_distance (r.prevOf insert_next_to_node) insert_next_to_node
      ≤ s.get_distance node (r.nextOf insert_next_to_node)
      + s.get_distance node insert_next_to_node
      - s.get_distance insert_next_to_node (r.nextOf insert_next_to_node)
  · simp only [if_pos hc]
    exact ⟨by simp [min_eq_left hc], by simp⟩
  · simp only [if_neg hc]
    exact ⟨by simp [min_eq_right (le_of_lt (not_le.mp hc))], by simp⟩

/-- C7: `update_ejection_costs(n)` sets `ejection_costs[n]` to
`get_distance(n, n.prev) + get_distance(n, n.next) − get_distance(n.prev, n.next)`. -/
theorem update_ejection_costs_spec (s : CEState) (sol : VRPSolution) (r : Route) (node : Node)
    (hnd : node.is_depot = false)
    (hr : sol.routeOf node = some r) :
    (s.update_ejection_costs sol node).ejection_costs node =
      some (s.get_distance node (r.prevOf node) + s.get_distance node (r.nextOf node)
            - s.get_distance (r.prevOf node) (r.nextOf node)) := by
  unfold CEState.update_ejection_costs
  rw [hr]
  simp

/-- Exact integer square root on the nonnegative rationals, used to
instantiate the abstract `math.sqrt` in concrete scenarios (it agrees with
the true square root on perfect squares, which is all the scenarios need). -/
def ratSqrt (q : ℚ) : ℚ := (Nat.findGreatest (fun k => k * k ≤ ⌊q⌋.toNat) ⌊q⌋.toNat : ℚ)

theorem ratSqrt_nonneg (q : ℚ) : 0 ≤ ratSqrt q := by
  unfold ratSqrt
  positivity

/-- Depot of the spec scenario S2: `depot(0,0)`. -/
def dE : Node := ⟨0, 0, 0, 0, true⟩

/-- Customer `n1(1,0)` of scenario S2, demand 1. -/
def n1E : Node := ⟨1, 1, 0, 1, false⟩

/-- Customer `n2(2,0)` of scenario S2, demand 1. -/
def n2E : Node := ⟨2, 2, 0, 1, false⟩

/-- The constructed evaluator of scenario S2 (penalization disabled). -/
def ceE : CEState := CostEvaluator.init ratSqrt [dE, n1E, n2E] 10

/-- The route `depot → n1 → n2 → depot` of scenario S2. -/
def rE : Route := ⟨dE, [n1E, n2E]⟩

/-- The one-route solution of scenario S2. -/
def solE : VRPSolution := ⟨[rE]⟩

/-- Witness for C7: scenario S2 — on the route `depot(0,0) → n1(1,0) → n2(2,0)`
with penalization disabled, `ejection_costs[n1] = 1 + 1 − 2 = 0`. -/
theorem update_ejection_costs_spec_witness :
    n1E.is_depot = false ∧ solE.routeOf n1E = some rE ∧
    (ceE.update_ejection_costs solE n1E).ejection_costs n1E =
      some (ceE.get_distance n1E (rE.prevOf n1E) + ceE.get_distance n1E (rE.nextOf n1E)
            - ceE.get_distance (rE.prevOf n1E) (rE.nextOf n1E)) ∧
    (ceE.update_ejection_costs solE n1E).ejection_costs n1E = some 0 := by
  have hroute : solE.routeOf n1E = some rE := by decide
  have h := update_ejection_costs_spec ceE solE rE n1E rfl hroute
  refine ⟨rfl, hroute, h, ?_⟩
  rw [h]
  simp [ceE, rE, CostEvaluator.init, initCosts, compute_euclidean_distance, ratSqrt, pyRound,
    CEState.get_distance, Route.prevOf, Route.nextOf, dE, n1E, n2E, nthNode]
  have e1 : (((1 : ℚ) - 2) ^ 2) = ((1 : ℕ) : ℚ) := by norm_num
  have e2 : (((2 : ℚ)) ^ 2) = ((4 : ℕ) : ℚ) := by norm_num
  rw [e1, e2]
  simp only [Int.floor_natCast, Int.toNat_ofNat]
  decide

/-- Witness for C6: inserting `n2` next to anchor `n1` in scenario S2. -/
theorem update_insertion_costs_spec_witness :
    n2E.is_depot = false ∧ solE.routeOf n1E = some rE ∧
    ((ceE.update_insertion_costs solE n2E n1E).insertion_costs (n2E, n1E) =
      some (min
        (ceE.get_distance n2E (rE.prevOf n1E) + ceE.get_distance n2E n1E
          - ceE.get_distance (rE.prevOf n1E) n1E)
        (ceE.get_distance n2E (rE.nextOf n1E) + ceE.get_distance n2E n1E
          - ceE.get_distance n1E (rE.nextOf n1E))) ∧
    (ceE.update_insertion_costs solE n2E n1E).insertion_after (n2E, n1E) =
      some (if ceE.get_distance n2E (rE.prevOf n1E) + ceE.get_distance n2E n1E
          - ceE.get_distance (rE.prevOf n1E) n1E
          ≤ ceE.get_distance n2E (rE.nextOf n1E) + ceE.get_distance n2E n1E
          - ceE.get_distance n1E (rE.nextOf n1E)
        then rE.prevOf n1E else n1E)) := by
  have hroute : solE.routeOf n1E = some rE := by decide
  exact ⟨rfl, hroute, update_insertion_costs_spec ceE solE rE n2E n1E rfl hroute⟩

/-- One public CostEvaluator operation, as named in the C3 claim; the
operations that dereference route pointers carry the solution (or routes)
they are called with. -/
inductive CEOp where
  | get_and_penalize_worst
  | penalize_edge (e : Edge)
  | enable_pen
  | disable_pen
  | determine_badness (routes : List Route)
  | update_relocation (sol : VRPSolution)

/-- Run one operation (a raising `get_and_penalize_worst_edge` on an empty
ranking leaves the state unchanged; Python raises IndexError there, so no
state past that point exists either way). -/
def applyOp (sqrtF : ℚ → ℚ) (s : CEState) : CEOp → CEState
  | .get_and_penalize_worst =>
    match s.get_and_penalize_worst_edge with
    | none => s
    | some (_, s') => s'
  | .penalize_edge e => s.penalize e
  | .enable_pen => s.enable_penalization
  | .disable_pen => s.disable_penalization
  | .determine_badness routes => s.determine_edge_badness sqrtF routes
  | .update_relocation sol => s.update_relocation_costs sol

/-- Run a sequence of operations. -/
def applyOps (sqrtF : ℚ → ℚ) (s : CEState) (ops : List CEOp) : CEState :=
  ops.foldl (applyOp sqrtF) s

/-- The evaluator fields that no operation ever rewrites: the raw cost
matrix, the baseline cost, the node list and the neighborhood keys. -/
def coreOf (s : CEState) : (ℕ → ℕ → ℤ) × ℤ × List Node × List Node :=
  (s.costs, s.baseline_cost, s.nodes, s.neighborhood_keys)

theorem update_ejection_costs_core (s : CEState) (sol : VRPSolution) (node : Node) :
    coreOf (s.update_ejection_costs sol node) = coreOf s ∧
    (s.update_ejection_costs sol node).penalized_costs = s.penalized_costs := by
  unfold CEState.update_ejection_costs
  cases sol.routeOf node <;> exact ⟨rfl, rfl⟩

theorem update_insertion_costs_core (s : CEState) (sol : VRPSolution) (a b : Node) :
    coreOf (s.update_insertion_costs sol a b) = coreOf s ∧
    (s.update_insertion_costs sol a b).penalized_costs = s.penalized_costs := by
  unfold CEState.update_insertion_costs
  cases sol.routeOf b with
  | none => exact ⟨rfl, rfl⟩
  | some r =>
    dsimp only
    split <;> exact ⟨rfl, rfl⟩

theorem foldl_core_preserved {β : Type} (f : CEState → β → CEState)
    (hf : ∀ st x, coreOf (f st x) = coreOf st ∧ (f st x).penalized_costs = st.penalized_costs) :
    ∀ (l : List β) (s : CEState),
      coreOf (l.foldl f s) = coreOf s ∧ (l.foldl f s).penalized_costs = s.penalized_costs
  | [], s => ⟨rfl, rfl⟩
  | x :: l, s => by
    have h1 := hf s x
    have h2 := foldl_core_preserved f hf l (f s x)
    simp only [List.foldl_cons]
    exact ⟨h2.1.trans h1.1, h2.2.trans h1.2⟩

theorem core_trans {a b c : CEState}
    (h1 : coreOf b = coreOf a ∧ b.penalized_costs = a.penalized_costs)
    (h2 : coreOf c = coreOf b ∧ c.penalized_costs = b.penalized_costs) :
    coreOf c = coreOf a ∧ c.penalized_costs = a.penalized_costs :=
  ⟨h2.1.trans h1.1, h2.2.trans h1.2⟩

theorem relocationBody_core (sol : VRPSolution) (st : CEState) (node : Node) :
    coreOf (relocationBody sol st node) = coreOf st ∧
    (relocationBody sol st node).penalized_costs = st.penalized_costs := by
  unfold relocationBody
  exact core_trans
    (core_trans (update_ejection_costs_core st sol node)
      (foldl_core_preserved _ (fun st2 pn => update_insertion_costs_core st2 sol node pn) _ _))
    (foldl_core_preserved _ (fun st3 pn => update_insertion_costs_core st3 sol pn node) _ _)

theorem update_relocation_costs_core (s : CEState) (sol : VRPSolution) :
    coreOf (s.update_relocation_costs sol) = coreOf s ∧
    (s.update_relocation_costs sol).penalized_costs = s.penalized_costs := by
  unfold CEState.update_relocation_costs
  exact foldl_core_preserved (relocationBody sol) (fun st n => relocationBody_core sol st n) _ s

/-- Popping and penalizing the worst edge leaves the core fields alone and
rewrites the penalized-cost matrix at exactly the popped edge's symmetric
pair of entries. -/
theorem get_and_penalize_worst_edge_state {s : CEState} {ret : Edge} {s' : CEState}
    (h : s.get_and_penalize_worst_edge = some (ret, s')) :
    coreOf s' = coreOf s ∧
    ∃ i j, s'.penalized_costs = (fun a b =>
      if (a = i ∧ b = j) ∨ (a = j ∧ b = i)
      then pyRound ((s.costs i j : ℚ) + (1 / 10) * (s.baseline_cost : ℚ)
        * ((s.edge_penalties (ekey i j) + 1 : ℕ) : ℚ))
      else s.penalized_costs a b) := by
  unfold CEState.get_and_penalize_worst_edge at h
  cases hp : popMax s.edge_ranking with
  | none => rw [hp] at h; exact absurd h (by simp)
  | some p =>
    obtain ⟨e, rest⟩ := p
    rw [hp] at h
    simp only [Option.some.injEq, Prod.mk.injEq] at h
    obtain ⟨-, rfl⟩ := h
    exact ⟨rfl, e.node1.node_id, e.node2.node_id, rfl⟩

theorem applyOp_core (sqrtF : ℚ → ℚ) (s : CEState) (op : CEOp) :
    coreOf (applyOp sqrtF s op) = coreOf s := by
  cases op with
  | get_and_penalize_worst =>
    unfold applyOp
    cases h : s.get_and_penalize_worst_edge with
    | none => rfl
    | some p =>
      obtain ⟨ret, s'⟩ := p
      exact (get_and_penalize_worst_edge_state h).1
  | penalize_edge e => rfl
  | enable_pen => rfl
  | disable_pen => rfl
  | determine_badness routes => rfl
  | update_relocation sol => exact (update_relocation_costs_core s sol).1

theorem applyOps_core (sqrtF : ℚ → ℚ) :
    ∀ (ops : List CEOp) (s : CEState), coreOf (applyOps sqrtF s ops) = coreOf s
  | [], s => rfl
  | op :: ops, s => by
    simp only [applyOps, List.foldl_cons]
    exact (applyOps_core sqrtF ops (applyOp sqrtF s op)).trans (applyOp_core sqrtF s op)

theorem pyRound_nonneg {q : ℚ} (hq : 0 ≤ q) : 0 ≤ pyRound q :=
  le_trans (Int.le_floor.mpr (by simpa using hq) : (0 : ℤ) ≤ ⌊q⌋) (pyRound_ge_floor q)

theorem pyInt_nonneg {q : ℚ} (hq : 0 ≤ q) : 0 ≤ pyInt q := by
  unfold pyInt
  rw [if_pos hq]
  exact Int.le_floor.mpr (by simpa using hq)

theorem compute_euclidean_distance_symm (sqrtF : ℚ → ℚ) (n1 n2 : Node) :
    compute_euclidean_distance sqrtF n1 n2 = compute_euclidean_distance sqrtF n2 n1 := by
  unfold compute_euclidean_distance
  have h : (n1.x_coordinate - n2.x_coordinate) ^ 2 + (n1.y_coordinate - n2.y_coordinate) ^ 2
      = (n2.x_coordinate - n1.x_coordinate) ^ 2 + (n2.y_coordinate - n1.y_coordinate) ^ 2 := by
    ring
  rw [h]

theorem compute_euclidean_distance_nonneg (sqrtF : ℚ → ℚ)
    (hsq : ∀ q, 0 ≤ q → 0 ≤ sqrtF q) (n1 n2 : Node) :
    0 ≤ compute_euclidean_distance sqrtF n1 n2 :=
  pyRound_nonneg (hsq _ (by positivity))

theorem initCosts_symm (sqrtF : ℚ → ℚ) (nodes : List Node) (i j : ℕ) :
    initCosts sqrtF nodes i j = initCosts sqrtF nodes j i := by
  unfold initCosts
  cases h1 : nodes.find? (fun n => n.node_id == i) <;>
    cases h2 : nodes.find? (fun n => n.node_id == j)
  · rfl
  · rfl
  · rfl
  · exact compute_euclidean_distance_symm sqrtF _ _

theorem initCosts_nonneg (sqrtF : ℚ → ℚ) (hsq : ∀ q, 0 ≤ q → 0 ≤ sqrtF q)
    (nodes : List Node) (i j : ℕ) : 0 ≤ initCosts sqrtF nodes i j := by
  unfold initCosts
  cases h1 : nodes.find? (fun n => n.node_id == i) <;>
    cases h2 : nodes.find? (fun n => n.node_id == j)
  · exact le_refl 0
  · exact le_refl 0
  · exact le_refl 0
  · exact compute_euclidean_distance_nonneg sqrtF hsq _ _

/-- The two penalized-cost invariants of C3 for one evaluator state. -/
def PCInv (s : CEState) : Prop :=
  ∀ i j, s.penalized_costs i j = s.penalized_costs j i ∧
    s.costs i j ≤ s.penalized_costs i j

/-- Auxiliary invariant carried through the operation induction: symmetric
raw costs, nonnegative baseline, and the C3 invariants. -/
def CEInv (s : CEState) : Prop :=
  (∀ i j, s.costs i j = s.costs j i) ∧ 0 ≤ s.baseline_cost ∧ PCInv s

theorem get_and_penalize_PCInv {s : CEState} {ret : Edge} {s' : CEState}
    (h : s.get_and_penalize_worst_edge = some (ret, s'))
    (hsym : ∀ i j, s.costs i j = s.costs j i) (hbase : 0 ≤ s.baseline_cost)
    (hpc : PCInv s) : PCInv s' := by
  obtain ⟨hcore, i, j, hpcfun⟩ := get_and_penalize_worst_edge_state h
  have hcosts : s'.costs = s.costs := congrArg Prod.fst hcore
  intro a b
  rw [hpcfun, hcosts]
  dsimp only
  by_cases hab : (a = i ∧ b = j) ∨ (a = j ∧ b = i)
  · have hba : (b = i ∧ a = j) ∨ (b = j ∧ a = i) := by tauto
    rw [if_pos hab, if_pos hba]
    refine ⟨rfl, ?_⟩
    have hb' : (0 : ℚ) ≤ (s.baseline_cost : ℚ) := by exact_mod_cast hbase
    have hx : (0 : ℚ) ≤ (1 / 10) * (s.baseline_cost : ℚ)
        * ((s.edge_penalties (ekey i j) + 1 : ℕ) : ℚ) :=
      mul_nonneg (mul_nonneg (by norm_num) hb') (Nat.cast_nonneg _)
    have hle := le_pyRound_add_of_nonneg (s.costs i j) _ hx
    rcases hab with ⟨ha, hb⟩ | ⟨ha, hb⟩
    · rw [ha, hb]; exact hle
    · rw [ha, hb, hsym j i]; exact hle
  · have hba : ¬ ((b = i ∧ a = j) ∨ (b = j ∧ a = i)) := by tauto
    rw [if_neg hab, if_neg hba]
    exact hpc a b

theorem applyOp_CEInv (sqrtF : ℚ → ℚ) (s : CEState) (op : CEOp) (h : CEInv s) :
    CEInv (applyOp sqrtF s op) := by
  obtain ⟨hsym, hbase, hpc⟩ := h
  have hcore := applyOp_core sqrtF s op
  have hcosts : (applyOp sqrtF s op).costs = s.costs := congrArg Prod.fst hcore
  have hbase2 : (applyOp sqrtF s op).baseline_cost = s.baseline_cost :=
    congrArg (fun p => p.2.1) hcore
  refine ⟨fun i j => by rw [hcosts]; exact hsym i j, by rw [hbase2]; exact hbase, ?_⟩
  have hpcGoal : ∀ t : CEState, t.penalized_costs = s.penalized_costs → t.costs = s.costs →
      PCInv t := by
    intro t h1 h2 a b
    rw [h1, h2]
    exact hpc a b
  cases op with
  | get_and_penalize_worst =>
    simp only [applyOp]
    cases hop : s.get_and_penalize_worst_edge with
    | none => exact hpc
    | some p =>
      obtain ⟨ret, s'⟩ := p
      exact get_and_penalize_PCInv hop hsym hbase hpc
  | penalize_edge e => exact hpcGoal _ rfl rfl
  | enable_pen => exact hpcGoal _ rfl rfl
  | disable_pen => exact hpcGoal _ rfl rfl
  | determine_badness routes => exact hpcGoal _ rfl rfl
  | update_relocation sol =>
    have hc := update_relocation_costs_core s sol
    exact hpcGoal _ hc.2 (congrArg Prod.fst hc.1)

theorem init_CEInv (sqrtF : ℚ → ℚ) (hsq : ∀ q, 0 ≤ q → 0 ≤ sqrtF q)
    (nodes : List Node) (capacity : ℤ) :
    CEInv (CostEvaluator.init sqrtF nodes capacity) := by
  refine ⟨fun i j => initCosts_symm sqrtF nodes i j, ?_, ?_⟩
  · show (0 : ℤ) ≤ pyInt _
    apply pyInt_nonneg
    apply div_nonneg
    · have htot : (0 : ℤ) ≤ ((nodes.filter (fun n => !n.is_depot)).map
          (fun n => ((get_nearest_neighbors nodes (initCosts sqrtF nodes) 20 n).map
            (fun other => initCosts sqrtF nodes n.node_id other.node_id)).sum)).sum := by
        apply List.sum_nonneg
        intro x hx
        obtain ⟨n, -, rfl⟩ := List.mem_map.mp hx
        apply List.sum_nonneg
        intro y hy
        obtain ⟨other, -, rfl⟩ := List.mem_map.mp hy
        exact initCosts_nonneg sqrtF hsq nodes _ _
      exact_mod_cast htot
    · positivity
  · intro i j
    exact ⟨initCosts_symm sqrtF nodes i j, le_refl _⟩

theorem applyOps_CEInv (sqrtF : ℚ → ℚ) :
    ∀ (ops : List CEOp) (s : CEState), CEInv s → CEInv (applyOps sqrtF s ops)
  | [], _, h => h
  | op :: ops, s, h => by
    simp only [applyOps, List.foldl_cons]
    exact applyOps_CEInv sqrtF ops _ (applyOp_CEInv sqrtF s op h)

/-- C3: at construction and after every sequence of CostEvaluator operations,
the penalized-cost matrix is symmetric and entrywise at least the raw cost
matrix. -/
theorem penalized_costs_invariant (sqrtF : ℚ → ℚ)
    (hsq : ∀ q, 0 ≤ q → 0 ≤ sqrtF q)
    (nodes : List Node) (capacity : ℤ) (ops : List CEOp) (i j : ℕ) :
    (applyOps sqrtF (CostEvaluator.init sqrtF nodes capacity) ops).penalized_costs i j =
      (applyOps sqrtF (CostEvaluator.init sqrtF nodes capacity) ops).penalized_costs j i ∧
    (applyOps sqrtF (CostEvaluator.init sqrtF nodes capacity) ops).costs i j ≤
      (applyOps sqrtF (CostEvaluator.init sqrtF nodes capacity) ops).penalized_costs i j :=
  (applyOps_CEInv sqrtF ops _ (init_CEInv sqrtF hsq nodes capacity)).2.2 i j

/-- Witness for C3 at a concrete instance: the scenario-S2 nodes, one
`enable_penalization` followed by one `get_and_penalize_worst_edge`. -/
theorem penalized_costs_invariant_witness :
    (∀ q, 0 ≤ q → 0 ≤ ratSqrt q) ∧
    ((applyOps ratSqrt (CostEvaluator.init ratSqrt [dE, n1E, n2E] 10)
        [CEOp.enable_pen, CEOp.get_and_penalize_worst]).penalized_costs 0 1 =
      (applyOps ratSqrt (CostEvaluator.init ratSqrt [dE, n1E, n2E] 10)
        [CEOp.enable_pen, CEOp.get_and_penalize_worst]).penalized_costs 1 0 ∧
    (applyOps ratSqrt (CostEvaluator.init ratSqrt [dE, n1E, n2E] 10)
        [CEOp.enable_pen, CEOp.get_and_penalize_worst]).costs 0 1 ≤
      (applyOps ratSqrt (CostEvaluator.init ratSqrt [dE, n1E, n2E] 10)
        [CEOp.enable_pen, CEOp.get_and_penalize_worst]).penalized_costs 0 1) :=
  ⟨fun q _ => ratSqrt_nonneg q,
   penalized_costs_invariant ratSqrt (fun q _ => ratSqrt_nonneg q) [dE, n1E, n2E] 10
     [CEOp.enable_pen, CEOp.get_and_penalize_worst] 0 1⟩

/-- C8: after `enable_penalization()` or `disable_penalization()` on the
constructed evaluator (after any operation sequence), the dirty set contains
exactly the non-depot nodes of the evaluator's node list, each exactly once. -/
theorem enable_disable_penalization_dirty (sqrtF : ℚ → ℚ) (nodes : List Node)
    (capacity : ℤ) (hnd : nodes.Nodup) (ops : List CEOp) :
    (∀ n, n ∈ ((applyOps sqrtF (CostEvaluator.init sqrtF nodes capacity)
          ops).enable_penalization).nodes_to_update_for_relocation_chain ↔
        (n ∈ nodes ∧ n.is_depot = false)) ∧
    ((applyOps sqrtF (CostEvaluator.init sqrtF nodes capacity)
        ops).enable_penalization).nodes_to_update_for_relocation_chain.Nodup ∧
    (∀ n, n ∈ ((applyOps sqrtF (CostEvaluator.init sqrtF nodes capacity)
          ops).disable_penalization).nodes_to_update_for_relocation_chain ↔
        (n ∈ nodes ∧ n.is_depot = false)) ∧
    ((applyOps sqrtF (CostEvaluator.init sqrtF nodes capacity)
        ops).disable_penalization).nodes_to_update_for_relocation_chain.Nodup := by
  have hkeys : (applyOps sqrtF (CostEvaluator.init sqrtF nodes capacity)
      ops).neighborhood_keys = nodes.filter (fun n => !n.is_depot) := by
    have h := applyOps_core sqrtF ops (CostEvaluator.init sqrtF nodes capacity)
    have h2 := congrArg (fun p => p.2.2.2) h
    simpa [coreOf, CostEvaluator.init] using h2
  have hen : ((applyOps sqrtF (CostEvaluator.init sqrtF nodes capacity)
      ops).enable_penalization).nodes_to_update_for_relocation_chain
      = nodes.filter (fun n => !n.is_depot) := by
    show (applyOps sqrtF (CostEvaluator.init sqrtF nodes capacity)
      ops).neighborhood_keys.filter (fun n => !n.is_depot) = _
    rw [hkeys]
    simp [List.filter_filter]
  have hdis : ((applyOps sqrtF (CostEvaluator.init sqrtF nodes capacity)
      ops).disable_penalization).nodes_to_update_for_relocation_chain
      = nodes.filter (fun n => !n.is_depot) := by
    show (applyOps sqrtF (CostEvaluator.init sqrtF nodes capacity)
      ops).neighborhood_keys.filter (fun n => !n.is_depot) = _
    rw [hkeys]
    simp [List.filter_filter]
  refine ⟨fun n => ?_, ?_, fun n => ?_, ?_⟩
  · rw [hen]; simp [List.mem_filter]
  · rw [hen]; exact hnd.filter _
  · rw [hdis]; simp [List.mem_filter]
  · rw [hdis]; exact hnd.filter _

/-- Witness for C8: the scenario-S2 evaluator, empty operation sequence. -/
theorem enable_disable_penalization_dirty_witness :
    ([dE, n1E, n2E] : List Node).Nodup ∧
    ((∀ n, n ∈ ((applyOps ratSqrt (CostEvaluator.init ratSqrt [dE, n1E, n2E] 10)
          []).enable_penalization).nodes_to_update_for_relocation_chain ↔
        (n ∈ [dE, n1E, n2E] ∧ n.is_depot = false)) ∧
    ((applyOps ratSqrt (CostEvaluator.init ratSqrt [dE, n1E, n2E] 10)
        []).enable_penalization).nodes_to_update_for_relocation_chain.Nodup ∧
    (∀ n, n ∈ ((applyOps ratSqrt (CostEvaluator.init ratSqrt [dE, n1E, n2E] 10)
          []).disable_penalization).nodes_to_update_for_relocation_chain ↔
        (n ∈ [dE, n1E, n2E] ∧ n.is_depot = false)) ∧
    ((applyOps ratSqrt (CostEvaluator.init ratSqrt [dE, n1E, n2E] 10)
        []).disable_penalization).nodes_to_update_for_relocation_chain.Nodup) :=
  ⟨by decide,
   enable_disable_penalization_dirty ratSqrt [dE, n1E, n2E] 10 (by decide) []⟩

/-- C4: with the width criterium active, `determine_edge_badness(routes)`
gives every edge `(u, v)` of every given route the value
`|d(u) − d(v)| / (1 + edge_penalties[e])`, where the signed distances are
taken from the line through the route's depot and its centroid (the mean of
the non-depot nodes' coordinates), each divided by the depot-to-centroid
distance and defined as 0 when that distance is zero. -/
theorem determine_edge_badness_width_spec (sqrtF : ℚ → ℚ) (s : CEState)
    (routes : List Route) (hw : s.penalization_criterium = Criterium.width) :
    (s.determine_edge_badness sqrtF routes).edge_ranking =
      routes.flatMap (fun route =>
        route.get_edges.map (fun e =>
          ({ node1 := e.1, node2 := e.2
             value :=
              (let cx := (route.customers.map (fun n => n.x_coordinate)).sum
                  / (route.customers.length : ℚ)
               let cy := (route.customers.map (fun n => n.y_coordinate)).sum
                  / (route.customers.length : ℚ)
               let dd := sqrtF ((route.depot.x_coordinate - cx) ^ 2
                  + (route.depot.y_coordinate - cy) ^ 2)
               let du := if dd = 0 then 0 else
                 ((cy - route.depot.y_coordinate) * e.1.x_coordinate
                  - (cx - route.depot.x_coordinate) * e.1.y_coordinate
                  + cx * route.depot.y_coordinate - cy * route.depot.x_coordinate) / dd
               let dv := if dd = 0 then 0 else
                 ((cy - route.depot.y_coordinate) * e.2.x_coordinate
                  - (cx - route.depot.x_coordinate) * e.2.y_coordinate
                  + cx * route.depot.y_coordinate - cy * route.depot.x_coordinate) / dd
               |du - dv|)
              / (1 + (s.edge_penalties (ekey e.1.node_id e.2.node_id) : ℚ)) } : Edge))) := by
  unfold CEState.determine_edge_badness
  rw [hw]
  simp [compute_edge_width, compute_route_center]

/-- Witness for C4: the freshly constructed scenario-S2 evaluator (whose
criterium is `width`) scoring the single S2 route. -/
theorem determine_edge_badness_width_spec_witness :
    ceE.penalization_criterium = Criterium.width ∧
    (ceE.determine_edge_badness ratSqrt [rE]).edge_ranking =
      [rE].flatMap (fun route =>
        route.get_edges.map (fun e =>
          ({ node1 := e.1, node2 := e.2
             value :=
              (let cx := (route.customers.map (fun n => n.x_coordinate)).sum
                  / (route.customers.length : ℚ)
               let cy := (route.customers.map (fun n => n.y_coordinate)).sum
                  / (route.customers.length : ℚ)
               let dd := ratSqrt ((route.depot.x_coordinate - cx) ^ 2
                  + (route.depot.y_coordinate - cy) ^ 2)
               let du := if dd = 0 then 0 else
                 ((cy - route.depot.y_coordinate) * e.1.x_coordinate
                  - (cx - route.depot.x_coordinate) * e.1.y_coordinate
                  + cx * route.depot.y_coordinate - cy * route.depot.x_coordinate) / dd
               let dv := if dd = 0 then 0 else
                 ((cy - route.depot.y_coordinate) * e.2.x_coordinate
                  - (cx - route.depot.x_coordinate) * e.2.y_coordinate
                  + cx * route.depot.y_coordinate - cy * route.depot.x_coordinate) / dd
               |du - dv|)
              / (1 + (ceE.edge_penalties (ekey e.1.node_id e.2.node_id) : ℚ)) } : Edge))) :=
  ⟨rfl, determine_edge_badness_width_spec ratSqrt ceE [rE] rfl⟩

theorem headD_mem_or (l : List Node) (d : Node) : l.headD d ∈ l ∨ l.headD d = d := by
  cases l with
  | nil => exact Or.inr rfl
  | cons a t => exact Or.inl (by simp)

theorem getLastD_mem_or : ∀ (l : List Node) (d : Node), l.getLastD d ∈ l ∨ l.getLastD d = d
  | [], _ => Or.inr rfl
  | a :: t, d => by
    rw [List.getLastD_cons]
    rcases getLastD_mem_or t a with h | h
    · exact Or.inl (List.mem_cons_of_mem a h)
    · exact Or.inl (by rw [h]; exact List.mem_cons_self a t)

theorem nextOf_mem_or (r : Route) (n : Node) :
    r.nextOf n ∈ r.customers ∨ r.nextOf n = r.depot := by
  unfold Route.nextOf
  split
  · exact headD_mem_or _ _
  · rcases headD_mem_or ((r.customers.dropWhile (fun m => m ≠ n)).tail) r.depot with h | h
    · exact Or.inl (((List.tail_sublist _).trans (List.dropWhile_sublist _)).subset h)
    · exact Or.inr h

theorem prevOf_mem_or (r : Route) (n : Node) :
    r.prevOf n ∈ r.customers ∨ r.prevOf n = r.depot := by
  unfold Route.prevOf
  split
  · exact getLastD_mem_or _ _
  · rcases getLastD_mem_or (r.customers.takeWhile (fun m => m ≠ n)) r.depot with h | h
    · exact Or.inl ((List.takeWhile_sublist _).subset h)
    · exact Or.inr h

theorem neighbourOf_mem_or (r : Route) (n : Node) (d : ℕ) :
    r.neighbourOf n d ∈ r.customers ∨ r.neighbourOf n d = r.depot := by
  unfold Route.neighbourOf
  split
  · exact nextOf_mem_or r n
  · exact prevOf_mem_or r n

theorem walkFrom_subset (r : Route) (n : Node) (d : ℕ) :
    ∀ x ∈ r.walkFrom n d, x ∈ r.customers ∨ x = r.depot := by
  intro x hx
  unfold Route.walkFrom at hx
  split at hx <;> rcases List.mem_append.mp hx with h | h
  · exact Or.inl (((List.tail_sublist _).trans (List.dropWhile_sublist _)).subset h)
  · exact Or.inr (by simpa using h)
  · exact Or.inl ((List.takeWhile_sublist _).subset (List.mem_reverse.mp h))
  · exact Or.inr (by simpa using h)

theorem routeOf_mem {sol : VRPSolution} {r : Route} {n : Node}
    (h : sol.routeOf n = some r) : r ∈ sol.routes ∧ n ∈ r.customers := by
  unfold VRPSolution.routeOf at h
  refine ⟨List.mem_of_find?_eq_some h, ?_⟩
  have := List.find?_some h
  simpa using this

theorem sumD_cons (a : Node) (l : List Node) : sumD (a :: l) = a.demand + sumD l := by
  simp [sumD]

theorem sumD_append_singleton (l : List Node) (a : Node) :
    sumD (l ++ [a]) = sumD l + a.demand := by
  simp [sumD]

theorem sumD_singleton (a : Node) : sumD [a] = a.demand := by
  simp [sumD]

theorem innerLoop_emit (ce : CEState) (route1 route2 : Route) (d1 d2 : ℕ)
    (conn1Start conn2Start conn1End : Node) (imp1 : ℤ) (start_node : Node)
    (seg1 : List Node) (vol1 : ℤ) (seg1End : Node)
    (hdep2 : route2.depot.is_depot = true) :
    ∀ (remaining : List Node) (cur : Node) (seg2 : List Node) (vol2 : ℤ),
      (∀ x ∈ remaining, x ∈ route2.customers ∨ x = route2.depot) →
      (cur ∈ route2.customers ∨ cur = route2.depot) →
      (∀ x ∈ seg2, x = cur ∨ (x.is_depot = false ∧ x ∈ route2.customers)) →
      cur ∈ seg2 → vol2 = sumD seg2 → seg2 ≠ [] →
      ∀ m ∈ innerLoop ce route1 route2 d1 d2 conn1Start conn2Start conn1End imp1
          start_node seg1 vol1 seg1End remaining cur seg2 vol2,
        m.segment1 = seg1 ∧ m.start_node = start_node ∧ m.segment2 ≠ [] ∧
        (∀ x ∈ m.segment2, x.is_depot = false ∧ x ∈ route2.customers) ∧
        route1.volume - vol1 + sumD m.segment2 ≤ ce.capacity ∧
        route2.volume - sumD m.segment2 + vol1 ≤ ce.capacity ∧
        (∃ s2e c2e, s2e ∈ m.segment2 ∧
          m.improvement = imp1 + (ce.get_distance seg1End conn1End
            + ce.get_distance s2e c2e - ce.get_distance seg1End c2e
            - ce.get_distance s2e conn1End)) ∧
        0 < m.improvement := by
  intro remaining
  induction remaining with
  | nil =>
    intro cur seg2 vol2 _ _ _ _ _ _ m hm
    unfold innerLoop at hm
    split at hm
    · simp at hm
    · split at hm
      · simp at hm
      · simp at hm
  | cons next2 rest ih =>
    intro cur seg2 vol2 hrem hcur hseg2 hcurmem hvol2 hne m hm
    unfold innerLoop at hm
    split at hm
    · simp at hm
    case isFalse hdepF =>
      split at hm
      · simp at hm
      case isFalse hfeas1F =>
        have hcurnd : cur.is_depot = false := by
          cases hdc : cur.is_depot with
          | true => exact absurd hdc hdepF
          | false => rfl
        have hcurc : cur ∈ route2.customers := by
          rcases hcur with h | h
          · exact h
          · rw [h] at hcurnd; rw [hdep2] at hcurnd; exact absurd hcurnd (by simp)
        have hfeas1 : route1.volume - vol1 + vol2 ≤ ce.capacity := by
          have hb : ce.is_feasible (route1.volume - vol1 + vol2) = true :=
            Bool.not_eq_false _ |>.mp hfeas1F
          exact of_decide_eq_true hb
        have hseg2good : ∀ x ∈ seg2, x.is_depot = false ∧ x ∈ route2.customers := by
          intro x hx
          rcases hseg2 x hx with h | h
          · rw [h]; exact ⟨hcurnd, hcurc⟩
          · exact h
        rcases List.mem_append.mp hm with hl | hr
        · split at hl
          case isTrue hfeas2 =>
            have hl2 : (0 < imp1 + (ce.get_distance seg1End conn1End
                + ce.get_distance cur next2 - ce.get_distance seg1End next2
                - ce.get_distance cur conn1End)) ∧
                m = CrossExchange.mk seg1 seg2
                  (if d2 = 1 then conn2Start else next2)
                  (if d1 = 1 then conn1Start else conn1End)
                  (imp1 + (ce.get_distance seg1End conn1End
                    + ce.get_distance cur next2 - ce.get_distance seg1End next2
                    - ce.get_distance cur conn1End))
                  start_node := by
              simpa using hl
            obtain ⟨himp, hme⟩ := hl2
            subst hme
            refine ⟨rfl, rfl, hne, hseg2good, ?_, ?_, ?_, ?_⟩
            · simpa [hvol2] using hfeas1
            · have := of_decide_eq_true hfeas2
              simpa [hvol2] using this
            · exact ⟨cur, next2, hcurmem, rfl⟩
            · exact himp
          case isFalse => simp at hl
        · -- recursive call
          have hrem' : ∀ x ∈ rest, x ∈ route2.customers ∨ x = route2.depot :=
            fun x hx => hrem x (List.mem_cons_of_mem _ hx)
          have hcur' : next2 ∈ route2.customers ∨ next2 = route2.depot :=
            hrem next2 (List.mem_cons_self _ _)
          by_cases hcond : (d2 = 1 ∧ d1 = 0) ∨ d1 + d2 = 0
          · rw [if_pos hcond] at hr
            refine ih next2 (next2 :: seg2) (vol2 + next2.demand) hrem' hcur' ?_
              (List.mem_cons_self _ _) ?_ (by simp) m hr
            · intro x hx
              rcases List.mem_cons.mp hx with h | h
              · exact Or.inl h
              · exact Or.inr (hseg2good x h)
            · rw [sumD_cons, hvol2]; ring
          · rw [if_neg hcond] at hr
            refine ih next2 (seg2 ++ [next2]) (vol2 + next2.demand) hrem' hcur' ?_
              (by simp) ?_ (by simp) m hr
            · intro x hx
              rcases List.mem_append.mp hx with h | h
              · exact Or.inr (hseg2good x h)
              · exact Or.inl (by simpa using h)
            · rw [sumD_append_singleton, hvol2]

theorem outerLoop_emit (ce : CEState) (route1 route2 : Route) (d1 d2 : ℕ)
    (conn1Start conn2Start : Node) (imp1 : ℤ) (start_node seg2Start : Node)
    (walk2 : List Node)
    (hdep1 : route1.depot.is_depot = true) (hdep2 : route2.depot.is_depot = true)
    (hwalk2 : ∀ x ∈ walk2, x ∈ route2.customers ∨ x = route2.depot)
    (hseg2Start : seg2Start ∈ route2.customers) :
    ∀ (remaining1 : List Node) (seg1End : Node) (seg1 : List Node) (vol1 : ℤ),
      (∀ x ∈ remaining1, x ∈ route1.customers ∨ x = route1.depot) →
      (seg1End ∈ route1.customers ∨ seg1End = route1.depot) →
      (∀ x ∈ seg1, x = seg1End ∨ (x.is_depot = false ∧ x ∈ route1.customers)) →
      seg1End ∈ seg1 → vol1 = sumD seg1 → seg1 ≠ [] →
      ∀ m ∈ outerLoop ce route1 route2 d1 d2 conn1Start conn2Start imp1 start_node
          seg2Start walk2 remaining1 seg1End seg1 vol1,
        m.start_node = start_node ∧ m.segment1 ≠ [] ∧
        (∀ x ∈ m.segment1, x.is_depot = false ∧ x ∈ route1.customers) ∧
        m.segment2 ≠ [] ∧
        (∀ x ∈ m.segment2, x.is_depot = false ∧ x ∈ route2.customers) ∧
        route1.volume - sumD m.segment1 + sumD m.segment2 ≤ ce.capacity ∧
        route2.volume - sumD m.segment2 + sumD m.segment1 ≤ ce.capacity ∧
        (∃ s1e c1e s2e c2e, s1e ∈ m.segment1 ∧ s2e ∈ m.segment2 ∧
          m.improvement = imp1 + (ce.get_distance s1e c1e
            + ce.get_distance s2e c2e - ce.get_distance s1e c2e
            - ce.get_distance s2e c1e)) ∧
        0 < m.improvement := by
  intro remaining1
  induction remaining1 with
  | nil =>
    intro seg1End seg1 vol1 _ _ _ _ _ _ m hm
    unfold outerLoop at hm
    split at hm
    · simp at hm
    · simp at hm
  | cons conn1End rest1 ih =>
    intro seg1End seg1 vol1 hrem1 hcur1 hseg1 hseg1mem hvol1 hne1 m hm
    unfold outerLoop at hm
    split at hm
    · simp at hm
    case isFalse hdepF =>
      have hnd1 : seg1End.is_depot = false := by
        cases hdc : seg1End.is_depot with
        | true => exact absurd hdc hdepF
        | false => rfl
      have hc1 : seg1End ∈ route1.customers := by
        rcases hcur1 with h | h
        · exact h
        · rw [h, hdep1] at hnd1
          exact absurd hnd1 (by simp)
      have hseg1good : ∀ x ∈ seg1, x.is_depot = false ∧ x ∈ route1.customers := by
        intro x hx
        rcases hseg1 x hx with h | h
        · rw [h]; exact ⟨hnd1, hc1⟩
        · exact h
      rcases List.mem_append.mp hm with hl | hr
      · have hinner := innerLoop_emit ce route1 route2 d1 d2 conn1Start conn2Start conn1End
          imp1 start_node seg1 vol1 seg1End hdep2 walk2 seg2Start [seg2Start]
          seg2Start.demand hwalk2 (Or.inl hseg2Start)
          (fun x hx => Or.inl (by simpa using hx)) (by simp) (by simp [sumD]) (by simp)
          m hl
        obtain ⟨hs1, hsn, hs2ne, hs2good, hcap1, hcap2, ⟨s2e, c2e, hs2e, himpEq⟩, himpPos⟩ :=
          hinner
        refine ⟨hsn, ?_, ?_, hs2ne, hs2good, ?_, ?_, ?_, himpPos⟩
        · rw [hs1]; exact hne1
        · rw [hs1]; exact hseg1good
        · rw [hs1, ← hvol1]; exact hcap1
        · rw [hs1, ← hvol1]; exact hcap2
        · exact ⟨seg1End, conn1End, s2e, c2e, by rw [hs1]; exact hseg1mem, hs2e, himpEq⟩
      · have hrem1' : ∀ x ∈ rest1, x ∈ route1.customers ∨ x = route1.depot :=
          fun x hx => hrem1 x (List.mem_cons_of_mem _ hx)
        have hcur1' : conn1End ∈ route1.customers ∨ conn1End = route1.depot :=
          hrem1 conn1End (List.mem_cons_self _ _)
        by_cases hcond : (d1 = 1 ∧ d2 = 0) ∨ d1 + d2 = 0
        · rw [if_pos hcond] at hr
          refine ih conn1End (conn1End :: seg1) (vol1 + conn1End.demand) hrem1' hcur1' ?_
            (List.mem_cons_self _ _) ?_ (by simp) m hr
          · intro x hx
            rcases List.mem_cons.mp hx with h | h
            · exact Or.inl h
            · exact Or.inr (hseg1good x h)
          · rw [sumD_cons, hvol1]; ring
        · rw [if_neg hcond] at hr
          refine ih conn1End (seg1 ++ [conn1End]) (vol1 + conn1End.demand) hrem1' hcur1' ?_
            (by simp) ?_ (by simp) m hr
          · intro x hx
            rcases List.mem_append.mp hx with h | h
            · exact Or.inr (hseg1good x h)
            · exact Or.inl (by simpa using h)
          · rw [sumD_append_singleton, hvol1]

theorem search_cross_exchanges_from_emit (ce : CEState) (sol : VRPSolution)
    (start_node : Node) (d1s d2s : List ℕ) (r1 : Route)
    (hwf : sol.WF) (hr1 : sol.routeOf start_node = some r1) :
    ∀ m ∈ search_cross_exchanges_from ce sol start_node d1s d2s,
      m.start_node = start_node ∧ m.segment1 ≠ [] ∧
      (∀ x ∈ m.segment1, x.is_depot = false ∧ x ∈ r1.customers) ∧
      ∃ r2, r2 ∈ sol.routes ∧ r2 ≠ r1 ∧ m.segment2 ≠ [] ∧
        (∀ x ∈ m.segment2, x.is_depot = false ∧ x ∈ r2.customers) ∧
        r1.volume - sumD m.segment1 + sumD m.segment2 ≤ ce.capacity ∧
        r2.volume - sumD m.segment2 + sumD m.segment1 ≤ ce.capacity ∧
        (∃ i1 c1s c2s s2s, c2s ∈ ce.get_neighborhood start_node ∧
          i1 = ce.get_distance start_node c1s + ce.get_distance s2s c2s
            - ce.get_distance start_node c2s - ce.get_distance s2s c1s ∧
          0 < i1 ∧
          (∃ s1e c1e s2e c2e, s1e ∈ m.segment1 ∧ s2e ∈ m.segment2 ∧
            m.improvement = i1 + (ce.get_distance s1e c1e + ce.get_distance s2e c2e
              - ce.get_distance s1e c2e - ce.get_distance s2e c1e))) ∧
        0 < m.improvement := by
  intro m hm
  unfold search_cross_exchanges_from at hm
  rw [hr1] at hm
  rcases List.mem_flatMap.mp hm with ⟨d1, hd1, hm1⟩
  rcases List.mem_flatMap.mp hm1 with ⟨d2, hd2, hm2⟩
  rcases List.mem_flatMap.mp hm2 with ⟨c2s, hc2s, hm3⟩
  split at hm3
  next => simp at hm3
  next route2 hroute2 =>
    split at hm3
    · simp at hm3
    case isFalse hne12 =>
      dsimp only at hm3
      generalize hconn1 : (if d1 = 1 then r1.prevOf start_node
        else r1.nextOf start_node) = conn1St at hm3
      split at hm3
      · simp at hm3
      case isFalse hs2ndF =>
        split at hm3
        case isFalse => simp at hm3
        case isTrue himp1 =>
          have hs2nd : (route2.neighbourOf c2s d2).is_depot = false := by
            cases hdc : (route2.neighbourOf c2s d2).is_depot with
            | true => exact absurd hdc hs2ndF
            | false => rfl
          have hr1mem := routeOf_mem hr1
          have hr2mem := routeOf_mem hroute2
          have hdep1 : r1.depot.is_depot = true := (hwf.1 r1 hr1mem.1).1
          have hdep2 : route2.depot.is_depot = true := (hwf.1 route2 hr2mem.1).1
          have hseg2Start : route2.neighbourOf c2s d2 ∈ route2.customers := by
            rcases neighbourOf_mem_or route2 c2s d2 with h | h
            · exact h
            · rw [h, hdep2] at hs2nd
              exact absurd hs2nd (by simp)
          have houter := outerLoop_emit ce r1 route2 d1 d2 conn1St c2s
            (ce.get_distance start_node conn1St
              + ce.get_distance (route2.neighbourOf c2s d2) c2s
              - ce.get_distance start_node c2s
              - ce.get_distance (route2.neighbourOf c2s d2) conn1St)
            start_node (route2.neighbourOf c2s d2)
            (route2.walkFrom (route2.neighbourOf c2s d2) d2)
            hdep1 hdep2 (walkFrom_subset route2 (route2.neighbourOf c2s d2) d2) hseg2Start
            (r1.walkFrom start_node d1) start_node [start_node] start_node.demand
            (walkFrom_subset r1 start_node d1) (Or.inl hr1mem.2)
            (fun x hx => Or.inl (by simpa using hx)) (by simp) (by simp [sumD]) (by simp)
            m hm3
          obtain ⟨hsn, hs1ne, hs1good, hs2ne, hs2good, hcap1, hcap2,
            ⟨s1e, c1e, s2e, c2e, hs1e, hs2e, himpEq⟩, himpPos⟩ := houter
          refine ⟨hsn, hs1ne, hs1good, route2, hr2mem.1, hne12, hs2ne, hs2good,
            hcap1, hcap2, ?_, himpPos⟩
          refine ⟨_, conn1St, c2s, route2.neighbourOf c2s d2, hc2s, rfl, himp1, ?_⟩
          exact ⟨s1e, c1e, s2e, c2e, hs1e, hs2e, himpEq⟩

/-- C1: every move emitted by `search_cross_exchanges_from` (default
directions) keeps both routes within capacity after the swap — the seed
route's post-swap load `R1.volume − Σ demand(segment1) + Σ demand(segment2)`
and the other route's post-swap load are at most the vehicle capacity (the
`is_feasible` bound) — and its stored improvement is the first-cross
improvement plus the second-cross improvement, is strictly positive, and the
first-cross improvement alone is strictly positive. -/
theorem cross_exchange_feasibility_improvement (ce : CEState) (sol : VRPSolution)
    (start_node : Node) (r1 : Route)
    (hwf : sol.WF) (hs : start_node.is_depot = false)
    (hr1 : sol.routeOf start_node = some r1) :
    ∀ m ∈ search_cross_exchanges_from ce sol start_node [0, 1] [0, 1],
      r1.volume - sumD m.segment1 + sumD m.segment2 ≤ ce.capacity ∧
      (∃ r2, r2 ∈ sol.routes ∧ r2 ≠ r1 ∧ (∀ x ∈ m.segment2, x ∈ r2.customers) ∧
        r2.volume - sumD m.segment2 + sumD m.segment1 ≤ ce.capacity) ∧
      (∃ i1 c1s c2s s2s, c2s ∈ ce.get_neighborhood start_node ∧
        i1 = ce.get_distance start_node c1s + ce.get_distance s2s c2s
          - ce.get_distance start_node c2s - ce.get_distance s2s c1s ∧
        0 < i1 ∧
        (∃ s1e c1e s2e c2e, s1e ∈ m.segment1 ∧ s2e ∈ m.segment2 ∧
          m.improvement = i1 + (ce.get_distance s1e c1e + ce.get_distance s2e c2e
            - ce.get_distance s1e c2e - ce.get_distance s2e c1e))) ∧
      0 < m.improvement := by
  intro m hm
  obtain ⟨-, -, -, r2, hr2, hner, -, hs2good, hcap1, hcap2, himp, himpPos⟩ :=
    search_cross_exchanges_from_emit ce sol start_node [0, 1] [0, 1] r1 hwf hr1 m hm
  exact ⟨hcap1, ⟨r2, hr2, hner, fun x hx => (hs2good x hx).2, hcap2⟩, himp, himpPos⟩

/-- C10: every move emitted by `search_cross_exchanges_from` has both segment
lists non-empty and free of depot nodes, segment 1 inside the seed's route and
segment 2 inside a single route distinct from the seed's route. -/
theorem cross_exchange_segments_wf (ce : CEState) (sol : VRPSolution)
    (start_node : Node) (r1 : Route)
    (hwf : sol.WF) (hs : start_node.is_depot = false)
    (hr1 : sol.routeOf start_node = some r1) :
    ∀ m ∈ search_cross_exchanges_from ce sol start_node [0, 1] [0, 1],
      m.segment1 ≠ [] ∧ m.segment2 ≠ [] ∧
      (∀ x ∈ m.segment1, x.is_depot = false) ∧
      (∀ x ∈ m.segment2, x.is_depot = false) ∧
      (∀ x ∈ m.segment1, x ∈ r1.customers) ∧
      (∃ r2, r2 ∈ sol.routes ∧ r2 ≠ r1 ∧ ∀ x ∈ m.segment2, x ∈ r2.customers) := by
  intro m hm
  obtain ⟨-, hs1ne, hs1good, r2, hr2, hner, hs2ne, hs2good, -, -, -, -⟩ :=
    search_cross_exchanges_from_emit ce sol start_node [0, 1] [0, 1] r1 hwf hr1 m hm
  exact ⟨hs1ne, hs2ne, fun x hx => (hs1good x hx).1, fun x hx => (hs2good x hx).1,
    fun x hx => (hs1good x hx).2, r2, hr2, hner, fun x hx => (hs2good x hx).2⟩

/-- First depot of the two-route cross-exchange witness instance. -/
def cwD1 : Node := ⟨0, 0, 0, 0, true⟩

/-- Second depot of the cross-exchange witness instance. -/
def cwD2 : Node := ⟨1, 0, 0, 0, true⟩

/-- Customer a(10,10), demand 4, of the cross-exchange witness instance. -/
def cwA : Node := ⟨2, 10, 10, 4, false⟩

/-- Customer b(20,0), demand 4. -/
def cwB : Node := ⟨3, 20, 0, 4, false⟩

/-- Customer x(10,−10), demand 3. -/
def cwX : Node := ⟨4, 10, -10, 3, false⟩

/-- Customer y(20,1), demand 3. -/
def cwY : Node := ⟨5, 20, 1, 3, false⟩

/-- Route depot → a → b of the witness instance. -/
def cwR1 : Route := ⟨cwD1, [cwA, cwB]⟩

/-- Route depot → x → y of the witness instance. -/
def cwR2 : Route := ⟨cwD2, [cwX, cwY]⟩

/-- The two-route witness solution. -/
def cwSol : VRPSolution := ⟨[cwR1, cwR2]⟩

/-- The witness evaluator (capacity 10). -/
def cwCE : CEState := CostEvaluator.init ratSqrt [cwD1, cwD2, cwA, cwB, cwX, cwY] 10

theorem cwSol_WF : cwSol.WF := by
  unfold VRPSolution.WF Route.WF
  decide

/-- Witness for C1 on the concrete two-route instance with seed `a`. -/
theorem cross_exchange_feasibility_improvement_witness :
    cwSol.WF ∧ cwA.is_depot = false ∧ cwSol.routeOf cwA = some cwR1 ∧
    (∀ m ∈ search_cross_exchanges_from cwCE cwSol cwA [0, 1] [0, 1],
      cwR1.volume - sumD m.segment1 + sumD m.segment2 ≤ cwCE.capacity ∧
      (∃ r2, r2 ∈ cwSol.routes ∧ r2 ≠ cwR1 ∧ (∀ x ∈ m.segment2, x ∈ r2.customers) ∧
        r2.volume - sumD m.segment2 + sumD m.segment1 ≤ cwCE.capacity) ∧
      (∃ i1 c1s c2s s2s, c2s ∈ cwCE.get_neighborhood cwA ∧
        i1 = cwCE.get_distance cwA c1s + cwCE.get_distance s2s c2s
          - cwCE.get_distance cwA c2s - cwCE.get_distance s2s c1s ∧
        0 < i1 ∧
        (∃ s1e c1e s2e c2e, s1e ∈ m.segment1 ∧ s2e ∈ m.segment2 ∧
          m.improvement = i1 + (cwCE.get_distance s1e c1e + cwCE.get_distance s2e c2e
            - cwCE.get_distance s1e c2e - cwCE.get_distance s2e c1e))) ∧
      0 < m.improvement) :=
  ⟨cwSol_WF, rfl, by decide,
   cross_exchange_feasibility_improvement cwCE cwSol cwA cwR1 cwSol_WF rfl (by decide)⟩

/-- Witness for C10 on the same concrete instance with seed `a`. -/
theorem cross_exchange_segments_wf_witness :
    cwSol.WF ∧ cwA.is_depot = false ∧ cwSol.routeOf cwA = some cwR1 ∧
    (∀ m ∈ search_cross_exchanges_from cwCE cwSol cwA [0, 1] [0, 1],
      m.segment1 ≠ [] ∧ m.segment2 ≠ [] ∧
      (∀ x ∈ m.segment1, x.is_depot = false) ∧
      (∀ x ∈ m.segment2, x.is_depot = false) ∧
      (∀ x ∈ m.segment1, x ∈ cwR1.customers) ∧
      (∃ r2, r2 ∈ cwSol.routes ∧ r2 ≠ cwR1 ∧ ∀ x ∈ m.segment2, x ∈ r2.customers)) :=
  ⟨cwSol_WF, rfl, by decide,
   cross_exchange_segments_wf cwCE cwSol cwA cwR1 cwSol_WF rfl (by decide)⟩
